import Mathlib

/-!
Verification of the owner-name classification/parsing engine and the
paged export orchestration of the austin-wizard repository.

Strings are embedded as `List Char`; JavaScript string operations
(`toUpperCase`, `includes`, `trim`, `split`, regex replaces over fixed
patterns) are translated into executable Lean functions on `List Char`.
A `null`/`undefined` string input behaves exactly like the empty string
in every function modelled here (all of them begin with a falsy check),
so both are embedded as `[]`.
-/

namespace AustinWizard

/-! ### Generic character/list utilities -/

/-- Whitespace characters matched by the JavaScript `\s` class (the
subset that can actually occur in the data handled here). -/
def jsSpace (c : Char) : Bool :=
  c == ' ' || c == '\t' || c == '\n' || c == '\r'

/-- An ASCII letter of either case (the alphabet of the universally
quantified token statements below). -/
def isAsciiAlpha (c : Char) : Bool :=
  c.isLower || c.isUpper

/-- JavaScript `String.prototype.toUpperCase`, ASCII fragment. -/
def upper (l : List Char) : List Char := l.map Char.toUpper

/-- JavaScript `String.prototype.toLowerCase`, ASCII fragment. -/
def lower (l : List Char) : List Char := l.map Char.toLower

/-- Drop trailing characters satisfying `p`. -/
def dropTrailing (p : Char → Bool) (l : List Char) : List Char :=
  ((l.reverse).dropWhile p).reverse

/-- JavaScript `String.prototype.trim`. -/
def trim (l : List Char) : List Char :=
  dropTrailing jsSpace (l.dropWhile jsSpace)

/-- Boolean list-prefix test (JS `startsWith`, also the workhorse of
substring search). -/
def isPre : List Char → List Char → Bool
  | [], _ => true
  | _ :: _, [] => false
  | a :: as, b :: bs => a == b && isPre as bs

/-- JavaScript `String.prototype.includes`: substring containment. -/
def containsSub (needle : List Char) : List Char → Bool
  | [] => needle.isEmpty
  | c :: rest => isPre needle (c :: rest) || containsSub needle rest

/-- Split a list at every character satisfying `p`
(JS `split(/\s+/)` is this followed by dropping empty pieces). -/
def splitPred (p : Char → Bool) : List Char → List (List Char)
  | [] => [[]]
  | c :: rest =>
    match splitPred p rest with
    | [] => if p c then [[], []] else [[c]]
    | t :: ts => if p c then [] :: t :: ts else (c :: t) :: ts

/-- Split a list at every occurrence of the separator character
(JS `String.prototype.split` with a one-character separator). -/
def splitCh (sep : Char) : List Char → List (List Char) :=
  splitPred (fun c => c == sep)

/-- Replace every maximal run of characters satisfying `p` by the single
character `rep` (JS `replace(/CLASS+/g, rep)` for a character class). -/
def collapseRuns (p : Char → Bool) (rep : Char) : List Char → List Char
  | [] => []
  | [c] => if p c then [rep] else [c]
  | c1 :: c2 :: rest =>
    if p c1 then
      if p c2 then collapseRuns p rep (c2 :: rest)
      else rep :: collapseRuns p rep (c2 :: rest)
    else c1 :: collapseRuns p rep (c2 :: rest)

/-! ### Name Classifier (src/unnamed/part_002) -/

/-- `BIZ_LIKE_TOKENS` from the source, verbatim: most entries carry
surrounding spaces, but `"INC"` does not. -/
def BIZ_LIKE_TOKENS : List (List Char) :=
  [" LLC".toList, "INC".toList, " CORP".toList, " CORPORATION".toList,
   " LTD".toList, " LP".toList, " L.P".toList, " LLP".toList,
   " PLLC".toList, " CO ".toList, " COMPANY".toList, " HOLDINGS".toList,
   " HLDGS".toList, " PARTNERS".toList, " PARTNERSHIP".toList,
   " TRUST".toList, " TR".toList, " INVESTMENTS".toList,
   " PROPERTIES".toList, " MGMT".toList, " MANAGEMENT".toList,
   " ENTERPRISE".toList, " FOUNDATION".toList]

/-- Owner classification result. -/
inductive OwnerClass where
  | business
  | residential
deriving DecidableEq, Repr

/-- `classifyOwner(name)`: empty input is residential; otherwise business
iff the uppercased name contains any `BIZ_LIKE_TOKENS` entry. -/
def classifyOwner (name : List Char) : OwnerClass :=
  if name.isEmpty then .residential
  else if BIZ_LIKE_TOKENS.any (fun t => containsSub t (upper name)) then .business
  else .residential

/-! ### Basic lemmas about the utilities -/

theorem isPre_iff_append (needle : List Char) :
    ∀ l, isPre needle l = true ↔ ∃ post, l = needle ++ post := by
  induction needle with
  | nil =>
    intro l
    simp [isPre]
  | cons a as ih =>
    intro l
    cases l with
    | nil =>
      simp [isPre]
    | cons b bs =>
      simp only [isPre, Bool.and_eq_true, beq_iff_eq, ih bs]
      constructor
      · rintro ⟨rfl, post, rfl⟩
        exact ⟨post, rfl⟩
      · rintro ⟨post, h⟩
        cases h
        exact ⟨rfl, post, rfl⟩

theorem containsSub_iff (needle : List Char) :
    ∀ hay, containsSub needle hay = true ↔ ∃ pre post, hay = pre ++ needle ++ post := by
  intro hay
  induction hay with
  | nil =>
    simp only [containsSub, List.isEmpty_iff]
    constructor
    · rintro rfl
      exact ⟨[], [], rfl⟩
    · rintro ⟨pre, post, h⟩
      rcases List.append_eq_nil.mp (List.append_eq_nil.mp h.symm).1 with ⟨_, h2⟩
      exact h2
  | cons c rest ih =>
    simp only [containsSub, Bool.or_eq_true, isPre_iff_append, ih]
    constructor
    · rintro (⟨post, h⟩ | ⟨pre, post, h⟩)
      · exact ⟨[], post, by simpa using h⟩
      · exact ⟨c :: pre, post, by simp [h]⟩
    · rintro ⟨pre, post, h⟩
      cases pre with
      | nil => exact Or.inl ⟨post, by simpa using h⟩
      | cons p ps =>
        simp only [List.cons_append, List.cons.injEq] at h
        exact Or.inr ⟨ps, post, by simp [h.2]⟩

theorem containsSub_of_inner {hay mid : List Char} (a b : List Char)
    (h : containsSub (a ++ mid ++ b) hay = true) : containsSub mid hay = true := by
  rw [containsSub_iff] at h ⊢
  obtain ⟨pre, post, rfl⟩ := h
  exact ⟨pre ++ a, b ++ post, by simp⟩

theorem dropWhile_eq_self_of_head {p : Char → Bool} {l : List Char}
    (h : match l with | [] => True | c :: _ => p c = false) :
    l.dropWhile p = l := by
  cases l with
  | nil => rfl
  | cons c rest => simp [List.dropWhile, h]

/-- A list whose chars all fail `p` survives `dropWhile p`. -/
theorem dropWhile_eq_self_of_all {p : Char → Bool} {l : List Char}
    (h : ∀ c ∈ l, p c = false) : l.dropWhile p = l := by
  cases l with
  | nil => rfl
  | cons c rest => simp [List.dropWhile, h c (by simp)]

/-- `trim` is the identity on a list whose first and last characters are
not whitespace. -/
theorem trim_eq_self {l : List Char}
    (h1 : match l with | [] => True | c :: _ => jsSpace c = false)
    (h2 : match l.reverse with | [] => True | c :: _ => jsSpace c = false) :
    trim l = l := by
  unfold trim dropTrailing
  rw [dropWhile_eq_self_of_head h1, dropWhile_eq_self_of_head h2, List.reverse_reverse]

/-! ### isLikelyPersonName (src/unnamed/part_002 lines 102-132) -/

/-- The fixed negative-token list from `isLikelyPersonName`, verbatim. -/
def NEGATIVE_TOKENS : List (List Char) :=
  ["UNKNOWN".toList, "UNKNOWN OWNER".toList, "SEE DEED".toList,
   "VACANT".toList, "MULTIPLE".toList, "DECEASED".toList, "C/O".toList,
   "%C/O%".toList, "ATTN".toList, "PO BOX".toList, "P O BOX".toList,
   "TRUSTEE".toList, "ESTATE".toList, "BANK".toList, "ASSOCIATION".toList,
   "HOA".toList, "REMAINDER".toList, "REMAINDERMAN".toList,
   "UNIT#".toList, "LOT#".toList]

/-- The punctuation class `[.,()\-\/]` of the cleaning regex. -/
def isPunctCls (c : Char) : Bool :=
  c == '.' || c == ',' || c == '(' || c == ')' || c == '-' || c == '/'

/-- The address-component tokens of the regex `/^(LOT|BLK|UNIT|STE|APT|#)$/i`
(a case-insensitive whole-token match). -/
def ADDRESS_TOKENS : List (List Char) :=
  ["LOT".toList, "BLK".toList, "UNIT".toList, "STE".toList, "APT".toList,
   "#".toList]

/-- `s.replace(/[.,()\-\/]+/g, " ").replace(/\s+/g, " ").trim().split(" ").filter(Boolean)`:
the token list `isLikelyPersonName` inspects. -/
def cleanedParts (s : List Char) : List (List Char) :=
  (splitCh ' ' (trim (collapseRuns jsSpace ' ' (collapseRuns isPunctCls ' ' s)))).filter
    (fun p => !p.isEmpty)

/-- `isLikelyPersonName(raw)`: the ordered early-exit rejection pipeline. -/
def isLikelyPersonName (raw : List Char) : Bool :=
  if raw.isEmpty then false
  else if (trim raw).isEmpty then false
  else if NEGATIVE_TOKENS.any (fun n => containsSub n (upper (trim raw))) then false
  else if BIZ_LIKE_TOKENS.any (fun t => containsSub (trim t) (upper (trim raw))) then false
  else if (cleanedParts (trim raw)).length < 2 then false
  else if (cleanedParts (trim raw)).any
      (fun p => p.any Char.isDigit || ADDRESS_TOKENS.contains (upper p)) then false
  else if ((cleanedParts (trim raw)).filter (fun p => p.length ≤ 2)).length ≥
      (cleanedParts (trim raw)).length - 1 then false
  else true

/-! ### splitPersonNames (src/unnamed/part_002 lines 137-208) -/

/-- Case-insensitive single-character match. -/
def charCI (c target : Char) : Bool :=
  c == target || c == target.toLower

/-- Try to match one co-owner separator
(`/\s+&\s+|\s+AND\s+|\s*\/\s*|;|\|/gi`, alternatives in source order)
at the head of the list; on success return the remainder after the
(greedy, maximal-munch) match.  Every successful match consumes at least
one character. -/
def matchSepAt (l : List Char) : Option (List Char) :=
  let w1 := (l.span jsSpace).1
  let r1 := (l.span jsSpace).2
  -- alternative 1: \s+&\s+
  let alt1 :=
    if w1.isEmpty then none
    else
      match r1 with
      | c :: r2 =>
        if c == '&' then
          if ((r2.span jsSpace).1).isEmpty then none
          else some ((r2.span jsSpace).2)
        else none
      | [] => none
  -- alternative 2: \s+AND\s+ (case-insensitive)
  let alt2 :=
    if w1.isEmpty then none
    else
      match r1 with
      | a :: n :: d :: r2 =>
        if charCI a 'A' && charCI n 'N' && charCI d 'D' then
          if ((r2.span jsSpace).1).isEmpty then none
          else some ((r2.span jsSpace).2)
        else none
      | _ => none
  -- alternative 3: \s*\/\s*
  let alt3 :=
    match r1 with
    | c :: r2 => if c == '/' then some ((r2.span jsSpace).2) else none
    | [] => none
  -- alternatives 4 and 5: ; and |
  let alt45 :=
    match l with
    | c :: r => if c == ';' then some r else if c == '|' then some r else none
    | [] => none
  (((alt1.orElse fun _ => alt2).orElse fun _ => alt3).orElse fun _ => alt45)

/-- Left-to-right global replacement of every separator match by `'|'`
(JS `replace(/\s+&\s+|\s+AND\s+|\s*\/\s*|;|\|/gi, "|")`).
`fuel` is an upper bound on the number of steps; each step either emits
one input character or consumes a nonempty match, so `l.length` fuel is
always sufficient and the `0` branch is unreachable. -/
def replaceSepGo (fuel : Nat) (l : List Char) : List Char :=
  match fuel, l with
  | _, [] => []
  | 0, l => l
  | fuel + 1, c :: rest =>
    match matchSepAt (c :: rest) with
    | some r => '|' :: replaceSepGo fuel r
    | none => c :: replaceSepGo fuel rest

def replaceSeparators (l : List Char) : List Char :=
  replaceSepGo l.length l

/-- One parsed co-owner: `{ first, middle?, last, full }`. -/
structure PersonName where
  first : List Char
  middle : Option (List Char)
  last : List Char
  full : List Char
deriving DecidableEq, Repr

/-- Comma rewriting: a segment `LAST, FIRST [MIDDLE]` becomes
`FIRST MIDDLE LAST` (step inside the `for` loop of `splitPersonNames`). -/
def rewriteCommaOrder (part : List Char) : List Char :=
  if containsSub [','] part then
    let pieces := ((splitCh ',' part).map trim).filter (fun x => !x.isEmpty)
    if 2 ≤ pieces.length then
      List.intercalate [' '] (pieces.drop 1) ++ ' ' :: pieces.headD []
    else part
  else part

/-- `part.replace(/^\(+|\)+$/g, "").trim()`. -/
def stripParens (part : List Char) : List Char :=
  trim (dropTrailing (fun c => c == ')') (part.dropWhile (fun c => c == '(')))

/-- Leading-title stripping, `replace(/^(MR|MRS|MS|DR|MISS)\.?/i, "")`.
JS alternation is first-match, so `MRS` is shadowed by `MR`; the
effective order is MR, MS, DR, MISS, each followed by an optional dot. -/
def stripTitles (l : List Char) : List Char :=
  let u := upper l
  let dropN : Nat → List Char := fun n =>
    match l.drop n with
    | '.' :: r => r
    | r => r
  if isPre "MR".toList u then dropN 2
  else if isPre "MS".toList u then dropN 2
  else if isPre "DR".toList u then dropN 2
  else if isPre "MISS".toList u then dropN 4
  else l

/-- The suffix alternatives of `/\b(JR|SR|II|III|IV|V|MD|ESQ|PHD)\.?$/i`. -/
def SUFFIX_TOKENS : List (List Char) :=
  ["JR".toList, "SR".toList, "II".toList, "III".toList, "IV".toList,
   "V".toList, "MD".toList, "ESQ".toList, "PHD".toList]

/-- JS `\w` word character. -/
def wordChar (c : Char) : Bool :=
  c.isAlpha || c.isDigit || c == '_'

/-- Does `alt` match at the end of `core` with a preceding word
boundary?  (`core` is the input with any single trailing dot removed.) -/
def suffixMatches (core alt : List Char) : Bool :=
  alt.length ≤ core.length &&
  upper (core.drop (core.length - alt.length)) == alt &&
  (core.length == alt.length ||
    !(wordChar (core.getD (core.length - alt.length - 1) ' ')))

/-- Trailing-suffix stripping, `replace(/\b(JR|SR|II|III|IV|V|MD|ESQ|PHD)\.?$/i, "")`.
All alternatives must end at `$` (after an optional dot), so the
leftmost JS match is the longest alternative matching at the end with a
word boundary; if none matches the input is unchanged. -/
def stripSuffixes (l : List Char) : List Char :=
  let core := if l.getLast? == some '.' then l.dropLast else l
  let cands := SUFFIX_TOKENS.filterMap
    (fun alt => if suffixMatches core alt then some alt.length else none)
  match cands.max? with
  | some k => core.take (core.length - k)
  | none => l

/-- `part.split(/\s+/).filter(Boolean)`. -/
def tokensOf (l : List Char) : List (List Char) :=
  (splitPred jsSpace l).filter (fun p => !p.isEmpty)

/-- The surname-particle test `/^(DE|DA|DEL|LA|VAN|VON|MC|MAC|O')$/i`. -/
def PARTICLES : List (List Char) :=
  ["DE".toList, "DA".toList, "DEL".toList, "LA".toList, "VAN".toList,
   "VON".toList, "MC".toList, "MAC".toList, "O'".toList]

def isParticle (tok : List Char) : Bool :=
  PARTICLES.contains (upper tok)

/-- The body of the `for` loop of `splitPersonNames`: one candidate
segment is rewritten, vetted and tokenized; `none` means the segment
contributes nothing. -/
def processSegment (part0 : List Char) : Option PersonName :=
  let part2 := stripParens (rewriteCommaOrder part0)
  if !isLikelyPersonName part2 then none
  else
    let part3 := trim (stripSuffixes (stripTitles part2))
    match tokensOf part3 with
    | [] => none
    | [t] => some ⟨t, none, [], part3⟩
    | [a, b] => some ⟨a, none, b, part3⟩
    | ts =>
      let secondLast := ts.getD (ts.length - 2) []
      if isParticle secondLast then
        let middle := List.intercalate [' '] ((ts.drop 1).dropLast.dropLast)
        some ⟨ts.headD [], if middle.isEmpty then none else some middle,
              List.intercalate [' '] (ts.drop (ts.length - 2)), part3⟩
      else
        let middle := List.intercalate [' '] ((ts.drop 1).dropLast)
        some ⟨ts.headD [], if middle.isEmpty then none else some middle,
              ts.getD (ts.length - 1) [], part3⟩

/-- `splitPersonNames(raw)`. -/
def splitPersonNames (raw : List Char) : List PersonName :=
  if raw.isEmpty then []
  else if (trim raw).isEmpty then []
  else
    (((splitCh '|' (replaceSeparators (trim raw))).map trim).filter
      (fun p => !p.isEmpty)).filterMap processSegment

/-! ### normalizeOwnerKey (src/unnamed/part_002 lines 211-219) -/

/-- Characters kept by `replace(/[^a-z0-9\s']/gi, "")`: ASCII letters of
either case (the regex is case-insensitive), digits, whitespace, and the
apostrophe. -/
def keepKeyChar (c : Char) : Bool :=
  c.isLower || c.isUpper || c.isDigit || jsSpace c || c == '\''

/-- `normalizeOwnerKey(raw)`: lowercase `"first last"` of the first
parsed person, with non-`[a-z0-9\s']` characters removed and whitespace
collapsed. -/
def normalizeOwnerKey (raw : List Char) : List Char :=
  if raw.isEmpty then []
  else
    match splitPersonNames raw with
    | [] => []
    | p :: _ =>
      collapseRuns jsSpace ' '
        ((lower (trim (p.first ++ ' ' :: p.last))).filter keepKeyChar)

/-! ### approxMedianFromBins (src/unnamed/part_002 lines 80-99)

JS numbers are embedded as `ℚ`: every value occurring here (integer
bucket counts, bucket bounds, halving and midpoint computations) is
represented exactly by both doubles and rationals. -/

/-- A histogram bin `{ label, count }`. -/
structure Bin where
  label : List Char
  count : ℚ
deriving DecidableEq

/-- A bucket range `{ lo?, hi? }`; a missing `ranges[i]` is the empty
object, i.e. both fields absent. -/
structure BinRange where
  lo : Option ℚ
  hi : Option ℚ
deriving DecidableEq

/-- The value the median loop returns for the selected bucket:
`lo = r.lo ?? 0`, `hi = r.hi ?? lo`, the bucket's `lo` when `hi ≤ lo`
(in particular when `hi` is absent), else the midpoint. -/
def bucketValue (r : BinRange) : ℚ :=
  let lo := r.lo.getD 0
  let hi := r.hi.getD lo
  if hi ≤ lo then lo else (lo + hi) / 2

/-- The `for` loop of `approxMedianFromBins`: accumulate counts until
the running total first reaches `half`; `ranges` is consumed in step
with `bins` (`ranges[i] || {}` is `tail`-shifting with an empty-object
default). -/
def medianLoop (half : ℚ) (cum : ℚ) : List Bin → List BinRange → ℚ
  | [], _ => 0
  | b :: bs, rs =>
    if half ≤ cum + b.count then bucketValue (rs.headD ⟨none, none⟩)
    else medianLoop half (cum + b.count) bs rs.tail

/-- `approxMedianFromBins(bins, ranges)`. -/
def approxMedianFromBins (bins : List Bin) (ranges : List BinRange) : ℚ :=
  let total := (bins.map Bin.count).sum
  if total = 0 then 0
  else medianLoop (total / 2) 0 bins ranges

/-! ### Retrying fetch client (src/unnamed/part_004)

`fetchJSON` either resolves with a JSON value or throws: an
`Error("HTTP " + status)` on a non-ok transport status, an ArcGIS
service error carrying an arbitrary message, or a DOMException
`AbortError`.  The stubbed transport for attempt `n` is a function
`Nat → FetchOutcome α`.  The abort signal is embedded by two predicates:
`sigAborted n` is the value of `signal.aborted` read right after attempt
`n` fails, and `abortsDelay n` tells whether the abort event fires while
the backoff delay after attempt `n` is pending (which rejects the delay
promise with an `AbortError`). -/

inductive FetchOutcome (α : Type) where
  | success (v : α)
  | httpError (status : Nat)
  | serviceError (msg : List Char)
  | abortError
deriving DecidableEq, Repr

/-- The message `String(e?.message || e)` the retry predicate inspects. -/
def outcomeMessage {α : Type} : FetchOutcome α → List Char
  | .success _ => []
  | .httpError st => "HTTP ".toList ++ (toString st).toList
  | .serviceError msg => msg
  | .abortError => "Aborted".toList

/-- Does `/HTTP (429|5\d\d)/` match at this position? -/
def matchHTTPAt (l : List Char) : Bool :=
  isPre "HTTP 429".toList l ||
  (isPre "HTTP 5".toList l &&
    match l.drop 6 with
    | a :: b :: _ => a.isDigit && b.isDigit
    | _ => false)

/-- `/HTTP (429|5\d\d)/.test(msg)`. -/
def retriablePattern : List Char → Bool
  | [] => false
  | c :: rest => matchHTTPAt (c :: rest) || retriablePattern rest

/-- `const retriable = /HTTP (429|5\d\d)/.test(String(e?.message || e))`. -/
def retriableOutcome {α : Type} (e : FetchOutcome α) : Bool :=
  retriablePattern (outcomeMessage e)

/-- The `while (true)` loop of `fetchJSONWithRetry`, returning the final
outcome together with the number of attempts made.  On a failure the
code throws unless the error is retriable, attempts remain
(`attempt < retries`) and the signal is not aborted; otherwise it waits
out the backoff delay (rejecting with `AbortError` if the abort event
fires during the wait) and retries.  `fuel` bounds the recursion; since
each recursive call increments `attempt` and recursion requires
`attempt < retries`, initial fuel `retries` makes the `0` branch
unreachable. -/
def fetchRetryGo {α : Type} (stub : Nat → FetchOutcome α)
    (sigAborted abortsDelay : Nat → Bool) (retries : Nat) :
    Nat → Nat → FetchOutcome α × Nat
  | attempt, fuel =>
    match stub attempt with
    | .success v => (.success v, attempt + 1)
    | e =>
      if !retriableOutcome e || retries ≤ attempt || sigAborted attempt then
        (e, attempt + 1)
      else if abortsDelay attempt then (.abortError, attempt + 1)
      else
        match fuel with
        | 0 => (e, attempt + 1)
        | fuel + 1 =>
          fetchRetryGo stub sigAborted abortsDelay retries (attempt + 1) fuel

/-- `fetchJSONWithRetry(url, body, signal, { retries })` over a stubbed
transport; `retries` defaults to 4 at the call sites modelled here. -/
def fetchJSONWithRetry {α : Type} (stub : Nat → FetchOutcome α)
    (sigAborted abortsDelay : Nat → Bool) (retries : Nat) :
    FetchOutcome α × Nat :=
  fetchRetryGo stub sigAborted abortsDelay retries 0 retries

/-! ### Export start guard (src/src/App.tsx lines 270, 582-597, 1177-1183)

The state relevant to the mutual-exclusion invariant: `exportRunning`
plus the pieces of state the synchronous prefix of `startExport`
writes.  The ZIP scope list is the memoized `exportZipList` value. -/

structure ZipScope where
  zip : List Char
  count : Nat
deriving DecidableEq, Repr

structure ExportUIState where
  exportRunning : Bool
  exportError : Option (List Char)
  exportLog : List (List Char)
  exportTotalRows : Nat
  exportTotalExpected : Option Nat
  exportZipList : List ZipScope
deriving DecidableEq, Repr

/-- The error message set when the ZIP scope is empty. -/
def noZipsMessage : List Char :=
  "No ZIPs to export. Choose a scope or provide custom ZIPs.".toList

/-- The synchronous prefix of `startExport` (App.tsx lines 582-597):
bail out with an error when the scope is empty, otherwise clear the
error/log/progress state and set `exportRunning` before any paging
begins. -/
def startExportBegin (s : ExportUIState) : ExportUIState :=
  if s.exportZipList.isEmpty then
    { s with exportError := some noZipsMessage }
  else
    { s with exportError := none, exportRunning := true, exportLog := [],
             exportTotalRows := 0, exportTotalExpected := none }

/-- The Start Export button (App.tsx lines 1177-1183) carries
`disabled={exportRunning}` and `onClick={startExport}`; a disabled
button does not invoke its click handler, so invoking the start-export
operation is a no-op while a job is running. -/
def startExportClick (s : ExportUIState) : ExportUIState :=
  if s.exportRunning then s else startExportBegin s

/-! ### Webhook streaming inside the export loop (App.tsx lines 700-793)

The export loop iterates ZIP entities sequentially and pages within each
entity; after appending a page's rows to the CSV it chunks the page into
`webhookBatchSize` batches and POSTs each as NDJSON.  `postNDJSON`
throws on a non-ok response status, and nothing between the loop bodies
and the outer `try`/`catch` intercepts that exception, so it unwinds
both loops and ends the whole job.  The model below keeps exactly that
control flow: a run returns the pages actually processed together with
the error, if any, that ended the job.  The webhook sink is a function
from the posted batch to the HTTP response status. -/

/-- `chunkArray(arr, size)`; `size ≥ 1` always holds at the call site
(the UI clamps the batch size to at least 50), which makes the fuel
bound `l.length` sufficient and the `0` branch unreachable. -/
def chunkGo {α : Type} (fuel : Nat) (l : List α) (size : Nat) : List (List α) :=
  match fuel, l with
  | _, [] => []
  | 0, l => [l]
  | fuel + 1, l => l.take size :: chunkGo fuel (l.drop size) size

def chunkArray {α : Type} (l : List α) (size : Nat) : List (List α) :=
  chunkGo l.length l size

/-- `postNDJSON`: POST one batch; `res.ok` means a status in `[200, 300)`,
anything else throws `Error("Webhook HTTP " + status)`. -/
def postNDJSON {α : Type} (sink : List α → Nat) (batch : List α) :
    Except (List Char) Unit :=
  let st := sink batch
  if 200 ≤ st ∧ st < 300 then .ok ()
  else .error ("Webhook HTTP ".toList ++ (toString st).toList)

/-- `for (const b of batches) { await postNDJSON(...) }`: the first
failing batch throws out of the loop. -/
def postBatches {α : Type} (sink : List α → Nat) :
    List (List α) → Except (List Char) Unit
  | [] => .ok ()
  | b :: bs =>
    match postNDJSON sink b with
    | .error e => .error e
    | .ok _ => postBatches sink bs

/-- Webhook streaming for one page (`if (webhookUrl) { ... }`): absent
URL does nothing, otherwise every chunk of the page is posted. -/
def streamPage {α : Type} (webhook : Option (List α → Nat)) (batchSize : Nat)
    (page : List α) : Except (List Char) Unit :=
  match webhook with
  | none => .ok ()
  | some sink => postBatches sink (chunkArray page batchSize)

/-- The page loop of one ZIP entity: each page is appended to the CSV
and then streamed; a webhook failure throws, ending the loop with the
pages processed so far (the failing page's rows were already fetched and
appended before the failing POST). -/
def runZip {α : Type} (webhook : Option (List α → Nat)) (batchSize : Nat) :
    List (List α) → List (List α) × Option (List Char)
  | [] => ([], none)
  | p :: ps =>
    match streamPage webhook batchSize p with
    | .error e => ([p], some e)
    | .ok _ =>
      match runZip webhook batchSize ps with
      | (done, err) => (p :: done, err)

/-- The entity loop of `startExport`: ZIPs are processed sequentially,
and an error thrown inside any ZIP's page loop propagates to the outer
`catch`, ending the whole job. -/
def runJob {α : Type} (webhook : Option (List α → Nat)) (batchSize : Nat) :
    List (List (List α)) → List (List α) × Option (List Char)
  | [] => ([], none)
  | z :: zs =>
    match runZip webhook batchSize z with
    | (done, some e) => (done, some e)
    | (done, none) =>
      match runJob webhook batchSize zs with
      | (done2, err2) => (done ++ done2, err2)

/-! ## Theorems -/

/-- Every entry of `BIZ_LIKE_TOKENS` is nonempty. -/
theorem biz_tokens_nonempty : BIZ_LIKE_TOKENS.all (fun t => !t.isEmpty) = true := by
  decide

/-- If the uppercased name contains some business token, `classifyOwner`
answers `business`. -/
theorem classifyOwner_business_of_contains (s t : List Char)
    (hmem : t ∈ BIZ_LIKE_TOKENS) (hsub : containsSub t (upper s) = true) :
    classifyOwner s = .business := by
  have hne : s.isEmpty = false := by
    rcases (containsSub_iff t (upper s)).mp hsub with ⟨pre, post, hu⟩
    have ht : t ≠ [] := by
      have := List.all_eq_true.mp biz_tokens_nonempty t hmem
      simpa [List.isEmpty_iff] using this
    rcases s with _ | ⟨c, rest⟩
    · exfalso
      apply ht
      have : ([] : List Char) = pre ++ t ++ post := by simpa [upper] using hu
      exact (List.append_eq_nil.mp (List.append_eq_nil.mp this.symm).1).2
    · rfl
  unfold classifyOwner
  rw [hne]
  simp only [Bool.false_eq_true, if_false]
  rw [if_pos]
  exact List.any_eq_true.mpr ⟨t, hmem, hsub⟩

/-- Claim C8: `classifyOwner` is a total deterministic function; the
empty (or absent) input classifies as `residential`, and any string
whose uppercase form contains one of the fixed business-indicator
tokens classifies as `business`. -/
theorem classifyOwner_total_empty_residential_business_tokens :
    classifyOwner [] = .residential ∧
    ∀ s t, t ∈ BIZ_LIKE_TOKENS → containsSub t (upper s) = true →
      classifyOwner s = .business :=
  ⟨rfl, classifyOwner_business_of_contains⟩

/-- Witness for C8: `"ACME LLC"` contains the token `" LLC"` and is
classified as a business. -/
theorem classifyOwner_total_empty_residential_business_tokens_witness :
    " LLC".toList ∈ BIZ_LIKE_TOKENS ∧
    containsSub " LLC".toList (upper "ACME LLC".toList) = true ∧
    classifyOwner "ACME LLC".toList = .business :=
  ⟨by decide, by decide,
   classifyOwner_total_empty_residential_business_tokens.2 "ACME LLC".toList
     " LLC".toList (by decide) (by decide)⟩

/-- Claim C10: the `"INC"` entry of `BIZ_LIKE_TOKENS` carries no
surrounding spaces, so any string whose uppercase form contains the
letter sequence `INC` anywhere — even inside a longer word — is
classified as a business. -/
theorem classifyOwner_business_of_INC (s : List Char)
    (h : containsSub "INC".toList (upper s) = true) :
    classifyOwner s = .business :=
  classifyOwner_business_of_contains s "INC".toList (by decide) h

/-- Witness for C10: `"PRINCE WILLIAM"` contains `INC` inside `PRINCE`
and is classified as a business. -/
theorem classifyOwner_business_of_INC_witness :
    containsSub "INC".toList (upper "PRINCE WILLIAM".toList) = true ∧
    classifyOwner "PRINCE WILLIAM".toList = .business :=
  ⟨by decide, classifyOwner_business_of_INC "PRINCE WILLIAM".toList (by decide)⟩

/-- Claim C3: at most one export job runs at a time.  While
`exportRunning` is set, invoking the start-export operation (the Start
Export button, which is `disabled={exportRunning}`) is rejected: the
state is unchanged and no second job begins. -/
theorem startExportClick_rejected_while_running (s : ExportUIState)
    (h : s.exportRunning = true) : startExportClick s = s := by
  unfold startExportClick
  rw [h]
  simp

/-- Witness for C3: a concrete running state is left untouched by a
second start request. -/
theorem startExportClick_rejected_while_running_witness :
    (ExportUIState.mk true none [] 0 none
      [⟨"78756".toList, 10⟩]).exportRunning = true ∧
    startExportClick (ExportUIState.mk true none [] 0 none
      [⟨"78756".toList, 10⟩]) =
      ExportUIState.mk true none [] 0 none [⟨"78756".toList, 10⟩] :=
  ⟨rfl, startExportClick_rejected_while_running _ rfl⟩

/-- Claim C6: `splitPersonNames` returns `[]` on empty (hence also
null/undefined, which every entry point treats identically) and on the
business string `"ACME LLC"`; on `"Smith, John & Doe, Jane"` it returns
at least two entries whose first names are `"John"` and `"Jane"`. -/
theorem splitPersonNames_examples :
    splitPersonNames [] = [] ∧
    splitPersonNames "ACME LLC".toList = [] ∧
    2 ≤ (splitPersonNames "Smith, John & Doe, Jane".toList).length ∧
    ((splitPersonNames "Smith, John & Doe, Jane".toList).getD 0
      ⟨[], none, [], []⟩).first = "John".toList ∧
    ((splitPersonNames "Smith, John & Doe, Jane".toList).getD 1
      ⟨[], none, [], []⟩).first = "Jane".toList := by
  refine ⟨rfl, by decide, by decide, by decide, by decide⟩

set_option maxRecDepth 4000 in
/-- Claim C4: the retrying fetch client retries only transient failures
(HTTP 429 or any 5xx), up to the bounded retry count.  With the default
`retries = 4`: a stub failing with HTTP 503 on the first two attempts
and succeeding on the third yields the success result after exactly 3
attempts; a stub always failing with HTTP 404 fails on the first
attempt with no retry; and for every three-digit status the retry
predicate holds exactly for 429 and the 5xx range. -/
theorem fetchJSONWithRetry_transient_only :
    (∀ (α : Type) (v : α),
      fetchJSONWithRetry (fun n => if n < 2 then .httpError 503 else .success v)
        (fun _ => false) (fun _ => false) 4 = (.success v, 3)) ∧
    (∀ (α : Type),
      fetchJSONWithRetry (fun _ => (FetchOutcome.httpError 404 : FetchOutcome α))
        (fun _ => false) (fun _ => false) 4 = (.httpError 404, 1)) ∧
    ((List.range 1000).all fun st =>
      retriableOutcome ((FetchOutcome.httpError st : FetchOutcome Unit)) ==
        (st == 429 || (500 ≤ st && st ≤ 599))) = true := by
  have hmsg : ∀ (α : Type) (st : Nat),
      retriableOutcome ((FetchOutcome.httpError st : FetchOutcome α)) =
        retriablePattern ("HTTP ".toList ++ (toString st).toList) :=
    fun _ _ => rfl
  have h503 :
      retriablePattern ('H' :: 'T' :: 'T' :: 'P' :: ' ' :: (toString 503).data)
        = true := by decide
  have h404 :
      retriablePattern ('H' :: 'T' :: 'T' :: 'P' :: ' ' :: (toString 404).data)
        = false := by decide
  refine ⟨fun α v => ?_, fun α => ?_, by decide⟩
  · simp [fetchJSONWithRetry, fetchRetryGo, hmsg, h503]
  · simp [fetchJSONWithRetry, fetchRetryGo, hmsg, h404]

/-- Claim C5: if the shared cancellation signal fires during a backoff
wait, the pending `fetchJSONWithRetry` call rejects with the abort error
and makes no further attempts: the failing attempt is the only one
made. -/
theorem fetchJSONWithRetry_abort_during_backoff (α : Type)
    (stub : Nat → FetchOutcome α) (sigAborted abortsDelay : Nat → Bool)
    (retries : Nat) (e : FetchOutcome α)
    (h0 : stub 0 = e) (hret : retriableOutcome e = true)
    (hr : 1 ≤ retries) (hs : sigAborted 0 = false)
    (hd : abortsDelay 0 = true) :
    fetchJSONWithRetry stub sigAborted abortsDelay retries = (.abortError, 1) := by
  unfold fetchJSONWithRetry fetchRetryGo
  rw [h0]
  have hretries : (retries ≤ 0) = False := by
    simp only [eq_iff_iff, iff_false]
    omega
  cases e with
  | success v =>
    exfalso
    simp [retriableOutcome, outcomeMessage, retriablePattern] at hret
  | httpError st =>
    simp [hret, hretries, hs, hd]
  | serviceError msg =>
    simp [hret, hretries, hs, hd]
  | abortError =>
    exfalso
    simp [retriableOutcome, outcomeMessage, retriablePattern, matchHTTPAt,
      isPre] at hret

/-- Witness for C5: a 503 on the first attempt followed by an abort
during the first backoff wait yields `abortError` after one attempt. -/
theorem fetchJSONWithRetry_abort_during_backoff_witness :
    retriableOutcome ((FetchOutcome.httpError 503 : FetchOutcome Unit)) = true ∧
    fetchJSONWithRetry (fun _ => (FetchOutcome.httpError 503 : FetchOutcome Unit))
      (fun _ => false) (fun _ => true) 4 = (.abortError, 1) :=
  ⟨by decide,
   fetchJSONWithRetry_abort_during_backoff Unit _ _ _ 4 _ rfl (by decide)
     (by omega) rfl rfl⟩

/-- Claim C9: with a webhook configured, a non-success HTTP status from
any batch POST aborts the whole export job: the job ends with that
error, the entities before the failing one contribute exactly their
fully processed pages, the failing entity stops at the failing page,
and no page of any later entity is processed. -/
theorem runJob_webhook_failure_aborts (α : Type) (sink : List α → Nat)
    (batchSize : Nat) (pre : List (List (List α))) (bad : List (List α))
    (post : List (List (List α))) (e : List Char)
    (hpre : ∀ z ∈ pre, (runZip (some sink) batchSize z).2 = none)
    (hbad : (runZip (some sink) batchSize bad).2 = some e) :
    runJob (some sink) batchSize (pre ++ bad :: post) =
      ((pre.map fun z => (runZip (some sink) batchSize z).1).flatten ++
        (runZip (some sink) batchSize bad).1, some e) := by
  induction pre with
  | nil =>
    rcases hz : runZip (some sink) batchSize bad with ⟨done, err⟩
    rw [hz] at hbad
    simp only at hbad
    subst hbad
    simp [runJob, hz]
  | cons z pre ih =>
    rcases hz : runZip (some sink) batchSize z with ⟨done, err⟩
    have hznone : err = none := by
      have := hpre z (by simp)
      rw [hz] at this
      exact this
    subst hznone
    have ih' := ih (fun w hw => hpre w (by simp [hw]))
    simp only [List.cons_append, runJob, hz, List.append_eq, ih',
      List.map_cons, List.flatten_cons, List.append_assoc]

/-- Witness for C9: one fully processed entity, then a batch the sink
answers with HTTP 500, then a never-reached entity. -/
theorem runJob_webhook_failure_aborts_witness :
    (∀ z ∈ [[[1]]], (runZip (some fun b => if b = [2] then 500 else 200)
      (50 : Nat) z).2 = none) ∧
    (runZip (some fun b => if b = [2] then 500 else 200) (50 : Nat)
      [[2]]).2 = some "Webhook HTTP 500".toList ∧
    runJob (some fun b => if b = [2] then 500 else 200) (50 : Nat)
      ([[[1]]] ++ [[2]] :: [[[3]]]) =
      ([[1], [2]], some "Webhook HTTP 500".toList) := by
  refine ⟨by decide, by decide, ?_⟩
  have h := runJob_webhook_failure_aborts Nat
    (fun b => if b = [2] then 500 else 200) 50 [[[1]]] [[2]] [[[3]]]
    "Webhook HTTP 500".toList (by decide) (by decide)
  rw [h]
  decide

theorem headD_eq_getD_zero {α : Type} (l : List α) (d : α) :
    l.headD d = l.getD 0 d := by
  cases l <;> rfl

theorem getD_tail {α : Type} (l : List α) (n : Nat) (d : α) :
    l.tail.getD n d = l.getD (n + 1) d := by
  cases l <;> rfl

/-- The median loop stops at the first bin whose cumulative count
(including the running total `cum`) reaches `half` and returns that
bin's bucket value. -/
theorem medianLoop_select (bins : List Bin) :
    ∀ (ranges : List BinRange) (half cum : ℚ) (i : Nat),
      i < bins.length →
      half ≤ cum + ((bins.take (i + 1)).map Bin.count).sum →
      (∀ j < i, cum + ((bins.take (j + 1)).map Bin.count).sum < half) →
      medianLoop half cum bins ranges =
        bucketValue (ranges.getD i ⟨none, none⟩) := by
  induction bins with
  | nil =>
    intro ranges half cum i hi
    exact absurd hi (by simp)
  | cons b bs ih =>
    intro ranges half cum i hi hreach hmin
    cases i with
    | zero =>
      have h1 : half ≤ cum + b.count := by simpa using hreach
      unfold medianLoop
      rw [if_pos h1, headD_eq_getD_zero]
    | succ i =>
      have h0 : cum + b.count < half := by simpa using hmin 0 (Nat.succ_pos i)
      unfold medianLoop
      rw [if_neg (not_le.mpr h0)]
      rw [← getD_tail]
      refine ih ranges.tail half (cum + b.count) i (by simpa using hi) ?_ ?_
      · have := hreach
        simp only [List.take_succ_cons, List.map_cons, List.sum_cons] at this
        linarith
      · intro j hj
        have := hmin (j + 1) (by omega)
        simp only [List.take_succ_cons, List.map_cons, List.sum_cons] at this
        linarith

/-- Claim C7: `approxMedianFromBins` returns the bucket value of the
first bin (in order) whose cumulative count reaches at least half of
the total count; for a bucket without an upper bound that value is the
bucket's lower bound; and on bins with counts `10, 10` and ranges
`{hi:100}, {lo:100, hi:200}` the result is `50`. -/
theorem approxMedianFromBins_first_half_bucket :
    (∀ (bins : List Bin) (ranges : List BinRange) (i : Nat),
      i < bins.length →
      (bins.map Bin.count).sum ≠ 0 →
      (bins.map Bin.count).sum / 2 ≤ ((bins.take (i + 1)).map Bin.count).sum →
      (∀ j < i, ((bins.take (j + 1)).map Bin.count).sum <
        (bins.map Bin.count).sum / 2) →
      approxMedianFromBins bins ranges =
        bucketValue (ranges.getD i ⟨none, none⟩)) ∧
    (∀ r : BinRange, r.hi = none → bucketValue r = r.lo.getD 0) ∧
    approxMedianFromBins [⟨[], 10⟩, ⟨[], 10⟩]
      [⟨none, some 100⟩, ⟨some 100, some 200⟩] = 50 := by
  refine ⟨?_, ?_, ?_⟩
  · intro bins ranges i hi htot hreach hmin
    unfold approxMedianFromBins
    rw [if_neg htot]
    refine medianLoop_select bins ranges _ 0 i hi (by simpa using hreach) ?_
    intro j hj
    simpa using hmin j hj
  · intro r h
    simp [bucketValue, h]
  · norm_num [approxMedianFromBins, medianLoop, bucketValue]

/-- Witness for C7: the general first-half-bucket rule applied to the
concrete two-bin histogram selects bucket 0. -/
theorem approxMedianFromBins_first_half_bucket_witness :
    approxMedianFromBins [⟨[], 10⟩, ⟨[], 10⟩]
      [⟨none, some 100⟩, ⟨some 100, some 200⟩] =
      bucketValue ⟨none, some 100⟩ := by
  have h := approxMedianFromBins_first_half_bucket.1
    [⟨[], 10⟩, ⟨[], 10⟩] [⟨none, some 100⟩, ⟨some 100, some 200⟩] 0
    (by decide) (by norm_num) (by norm_num) (by omega)
  simpa using h

/-! ### Character facts -/

theorem isLower_iff (c : Char) : c.isLower = true ↔ 97 ≤ c.toNat ∧ c.toNat ≤ 122 := by
  simp [Char.isLower, UInt32.le_def, BitVec.le_def, Char.toNat, UInt32.toNat]

theorem isUpper_iff (c : Char) : c.isUpper = true ↔ 65 ≤ c.toNat ∧ c.toNat ≤ 90 := by
  simp [Char.isUpper, UInt32.le_def, BitVec.le_def, Char.toNat, UInt32.toNat]

theorem isDigit_iff (c : Char) : c.isDigit = true ↔ 48 ≤ c.toNat ∧ c.toNat ≤ 57 := by
  simp [Char.isDigit, UInt32.le_def, BitVec.le_def, Char.toNat, UInt32.toNat]

theorem char_toNat_inj {c d : Char} (h : c.toNat = d.toNat) : c = d := by
  have := congrArg Char.ofNat h
  simpa using this

/-- An ASCII letter is none of a fixed list of special characters. -/
theorem alpha_ne (c d : Char) (hd : isAsciiAlpha d = false)
    (h : isAsciiAlpha c = true) : c ≠ d := by
  intro he
  rw [he] at h
  rw [h] at hd
  simp at hd

theorem alpha_not_space {c : Char} (h : isAsciiAlpha c = true) :
    jsSpace c = false := by
  unfold jsSpace
  have h1 : c ≠ ' ' := alpha_ne c ' ' (by decide) h
  have h2 : c ≠ '\t' := alpha_ne c '\t' (by decide) h
  have h3 : c ≠ '\n' := alpha_ne c '\n' (by decide) h
  have h4 : c ≠ '\r' := alpha_ne c '\r' (by decide) h
  simp [h1, h2, h3, h4]

theorem alpha_not_punct {c : Char} (h : isAsciiAlpha c = true) :
    isPunctCls c = false := by
  unfold isPunctCls
  have h1 : c ≠ '.' := alpha_ne c '.' (by decide) h
  have h2 : c ≠ ',' := alpha_ne c ',' (by decide) h
  have h3 : c ≠ '(' := alpha_ne c '(' (by decide) h
  have h4 : c ≠ ')' := alpha_ne c ')' (by decide) h
  have h5 : c ≠ '-' := alpha_ne c '-' (by decide) h
  have h6 : c ≠ '/' := alpha_ne c '/' (by decide) h
  simp [h1, h2, h3, h4, h5, h6]

theorem alpha_not_digit {c : Char} (h : isAsciiAlpha c = true) :
    c.isDigit = false := by
  rcases Bool.or_eq_true _ _ |>.mp h with hl | hu
  · by_contra hd
    have hd' := isDigit_iff c |>.mp (by simpa using hd)
    have hl' := isLower_iff c |>.mp hl
    omega
  · by_contra hd
    have hd' := isDigit_iff c |>.mp (by simpa using hd)
    have hu' := isUpper_iff c |>.mp hu
    omega

theorem alpha_wordChar {c : Char} (h : isAsciiAlpha c = true) :
    wordChar c = true := by
  unfold wordChar
  rcases Bool.or_eq_true _ _ |>.mp h with hl | hu
  · simp [Char.isAlpha, hl]
  · simp [Char.isAlpha, hu]

theorem lower_is_alpha {c : Char} (h : c.isLower = true) :
    isAsciiAlpha c = true := by
  simp [isAsciiAlpha, h]

theorem toLower_of_isLower {c : Char} (h : c.isLower = true) :
    c.toLower = c := by
  have h' := isLower_iff c |>.mp h
  unfold Char.toLower
  rw [if_neg (by omega)]

theorem keepKeyChar_of_lower {c : Char} (h : c.isLower = true) :
    keepKeyChar c = true := by
  simp [keepKeyChar, h]

/-! ### splitPred lemmas -/

theorem splitPred_ne_nil (p : Char → Bool) (l : List Char) :
    splitPred p l ≠ [] := by
  cases l with
  | nil => simp [splitPred]
  | cons c rest =>
    cases h : splitPred p rest with
    | nil => cases hpc : p c <;> simp [splitPred, h, hpc]
    | cons t ts => cases hpc : p c <;> simp [splitPred, h, hpc]

theorem splitPred_no_sep {p : Char → Bool} {l : List Char}
    (h : ∀ c ∈ l, p c = false) : splitPred p l = [l] := by
  induction l with
  | nil => rfl
  | cons c rest ih =>
    unfold splitPred
    rw [ih (fun x hx => h x (by simp [hx]))]
    simp [h c (by simp)]

theorem splitPred_append_sep {p : Char → Bool} {xs : List Char} (c : Char)
    (ys : List Char) (hxs : ∀ x ∈ xs, p x = false) (hc : p c = true) :
    splitPred p (xs ++ c :: ys) = xs :: splitPred p ys := by
  induction xs with
  | nil =>
    simp only [List.nil_append]
    cases h : splitPred p ys with
    | nil => exact absurd h (splitPred_ne_nil p ys)
    | cons t ts =>
      unfold splitPred
      rw [h]
      simp [hc]
  | cons x xs ih =>
    have ih' := ih (fun z hz => hxs z (by simp [hz]))
    simp only [List.cons_append]
    conv_lhs => rw [splitPred]
    rw [ih']
    simp [hxs x (by simp)]

/-! ### collapseRuns lemmas -/

theorem collapseRuns_of_none {p : Char → Bool} {rep : Char} {l : List Char}
    (h : ∀ c ∈ l, p c = false) : collapseRuns p rep l = l := by
  induction l with
  | nil => rfl
  | cons c rest ih =>
    cases rest with
    | nil => simp [collapseRuns, h c (by simp)]
    | cons c2 rest2 =>
      unfold collapseRuns
      rw [h c (by simp), ih (fun x hx => h x (by simp [hx]))]
      simp

theorem collapseRuns_append_of_none {p : Char → Bool} {rep : Char}
    {xs : List Char} (rest : List Char) (h : ∀ c ∈ xs, p c = false) :
    collapseRuns p rep (xs ++ rest) = xs ++ collapseRuns p rep rest := by
  induction xs with
  | nil => simp
  | cons x xs ih =>
    have ih' := ih (fun z hz => h z (by simp [hz]))
    cases hxr : xs ++ rest with
    | nil =>
      rcases List.append_eq_nil.mp hxr with ⟨rfl, rfl⟩
      simp [collapseRuns, h x (by simp)]
    | cons y ys =>
      show collapseRuns p rep (x :: (xs ++ rest)) = _
      rw [hxr]
      conv_lhs => rw [collapseRuns]
      rw [h x (by simp)]
      simp only [Bool.false_eq_true, if_false]
      rw [← hxr, ih']
      simp

/-- Collapsing whitespace runs leaves a single interior space between
two space-free nonempty pieces untouched. -/
theorem collapseRuns_single_space {rep : Char} (hrep : rep = ' ')
    (t1 t2 : List Char) (h1 : ∀ c ∈ t1, jsSpace c = false)
    (h2 : ∀ c ∈ t2, jsSpace c = false) (hne : t2 ≠ []) :
    collapseRuns jsSpace rep (t1 ++ ' ' :: t2) = t1 ++ ' ' :: t2 := by
  rw [collapseRuns_append_of_none (' ' :: t2) h1]
  congr 1
  cases t2 with
  | nil => exact absurd rfl hne
  | cons y ys =>
    unfold collapseRuns
    rw [show jsSpace ' ' = true from rfl, h2 y (by simp)]
    simp only [Bool.false_eq_true, if_false, if_true]
    rw [collapseRuns_of_none (fun x hx => h2 x hx), hrep]

/-- `trim` is the identity when both ends are non-whitespace. -/
theorem trim_two_tokens (t1 t2 : List Char) (h1 : ∀ c ∈ t1, jsSpace c = false)
    (h2 : ∀ c ∈ t2, jsSpace c = false) (n1 : t1 ≠ []) (n2 : t2 ≠ []) :
    trim (t1 ++ ' ' :: t2) = t1 ++ ' ' :: t2 := by
  unfold trim dropTrailing
  have hhead : (t1 ++ ' ' :: t2).dropWhile jsSpace = t1 ++ ' ' :: t2 := by
    cases t1 with
    | nil => exact absurd rfl n1
    | cons a t1' => simp [List.dropWhile_cons, h1 a (by simp)]
  rw [hhead]
  cases hrev : (t1 ++ ' ' :: t2).reverse with
  | nil =>
    exfalso
    have := congrArg List.length hrev
    simp at this
  | cons c rest =>
    have hlast : (t1 ++ ' ' :: t2).getLast? = some c := by
      rw [List.getLast?_eq_head?_reverse, hrev]
      rfl
    have hlast2 : (' ' :: t2).getLast? = some c := by
      rw [List.getLast?_append] at hlast
      cases hx : (' ' :: t2).getLast? with
      | none =>
        exfalso
        rw [hx] at hlast
        cases t2 with
        | nil => exact absurd rfl n2
        | cons b t2' => simp [List.getLast?_cons_cons] at hx
      | some d =>
        rw [hx] at hlast
        simpa using hlast
    have hcmem : c ∈ t2 := by
      cases t2 with
      | nil => exact absurd rfl n2
      | cons b t2' =>
        rw [List.getLast?_cons_cons] at hlast2
        exact List.mem_of_getLast?_eq_some hlast2
    rw [List.dropWhile_cons, h2 c hcmem]
    simp [← hrev]

/-! ### Two-token person names -/

theorem mem_two_tokens {t1 t2 : List Char} {c : Char}
    (hc : c ∈ t1 ++ ' ' :: t2) : c ∈ t1 ∨ c = ' ' ∨ c ∈ t2 := by
  rcases List.mem_append.mp hc with h | h
  · exact Or.inl h
  · rcases List.mem_cons.mp h with h | h
    · exact Or.inr (Or.inl h)
    · exact Or.inr (Or.inr h)

theorem cleanedParts_two_tokens (t1 t2 : List Char)
    (h1 : ∀ c ∈ t1, isAsciiAlpha c = true) (h2 : ∀ c ∈ t2, isAsciiAlpha c = true)
    (n1 : t1 ≠ []) (n2 : t2 ≠ []) :
    cleanedParts (t1 ++ ' ' :: t2) = [t1, t2] := by
  have hs1 : ∀ c ∈ t1, jsSpace c = false := fun c hc => alpha_not_space (h1 c hc)
  have hs2 : ∀ c ∈ t2, jsSpace c = false := fun c hc => alpha_not_space (h2 c hc)
  unfold cleanedParts
  have hpunct : collapseRuns isPunctCls ' ' (t1 ++ ' ' :: t2) =
      t1 ++ ' ' :: t2 := by
    apply collapseRuns_of_none
    intro c hc
    rcases mem_two_tokens hc with h | h | h
    · exact alpha_not_punct (h1 c h)
    · rw [h]; rfl
    · exact alpha_not_punct (h2 c h)
  rw [hpunct]
  rw [collapseRuns_single_space rfl t1 t2 hs1 hs2 n2]
  rw [trim_two_tokens t1 t2 hs1 hs2 n1 n2]
  unfold splitCh
  rw [splitPred_append_sep ' ' t2
    (fun x hx => by simp [alpha_ne x ' ' (by decide) (h1 x hx)]) (by simp)]
  rw [splitPred_no_sep (fun x hx => by
    simp [alpha_ne x ' ' (by decide) (h2 x hx)])]
  simp [n1, n2]

/-- `isLikelyPersonName` accepts every string made of two alphabetic
tokens of length at least 3 separated by one space, provided the
uppercased string contains no negative token and no (trimmed) business
token and neither token is an address-component token. -/
theorem isLikelyPersonName_two_alpha_tokens (t1 t2 : List Char)
    (h1 : ∀ c ∈ t1, isAsciiAlpha c = true) (h2 : ∀ c ∈ t2, isAsciiAlpha c = true)
    (hl1 : 3 ≤ t1.length) (hl2 : 3 ≤ t2.length)
    (hneg : ∀ n ∈ NEGATIVE_TOKENS, containsSub n (upper (t1 ++ ' ' :: t2)) = false)
    (hbiz : ∀ b ∈ BIZ_LIKE_TOKENS, containsSub (trim b) (upper (t1 ++ ' ' :: t2)) = false)
    (ha1 : ADDRESS_TOKENS.contains (upper t1) = false)
    (ha2 : ADDRESS_TOKENS.contains (upper t2) = false) :
    isLikelyPersonName (t1 ++ ' ' :: t2) = true := by
  have n1 : t1 ≠ [] := by rintro rfl; simp at hl1
  have n2 : t2 ≠ [] := by rintro rfl; simp at hl2
  have hs1 : ∀ c ∈ t1, jsSpace c = false := fun c hc => alpha_not_space (h1 c hc)
  have hs2 : ∀ c ∈ t2, jsSpace c = false := fun c hc => alpha_not_space (h2 c hc)
  have htrim : trim (t1 ++ ' ' :: t2) = t1 ++ ' ' :: t2 :=
    trim_two_tokens t1 t2 hs1 hs2 n1 n2
  have hempty : (t1 ++ ' ' :: t2).isEmpty = false := by
    cases t1 <;> simp
  have hanyneg : (NEGATIVE_TOKENS.any
      fun n => containsSub n (upper (t1 ++ ' ' :: t2))) = false :=
    List.any_eq_false.mpr (fun n hn => by simp [hneg n hn])
  have hanybiz : (BIZ_LIKE_TOKENS.any
      fun t => containsSub (trim t) (upper (t1 ++ ' ' :: t2))) = false :=
    List.any_eq_false.mpr (fun t ht => by simp [hbiz t ht])
  have hcp : cleanedParts (t1 ++ ' ' :: t2) = [t1, t2] :=
    cleanedParts_two_tokens t1 t2 h1 h2 n1 n2
  have hdig1 : t1.any Char.isDigit = false :=
    List.any_eq_false.mpr (fun c hc => by simp [alpha_not_digit (h1 c hc)])
  have hdig2 : t2.any Char.isDigit = false :=
    List.any_eq_false.mpr (fun c hc => by simp [alpha_not_digit (h2 c hc)])
  unfold isLikelyPersonName
  rw [htrim, hempty, hcp, hanyneg, hanybiz]
  simp only [Bool.false_eq_true, if_false]
  rw [if_neg (by simp)]
  rw [if_neg ?hda]
  rw [if_neg ?hshort]
  case hda =>
    simp only [List.any_eq_true, Bool.or_eq_true, not_exists]
    simp only [List.mem_cons, List.not_mem_nil]
    push_neg
    intro p hp
    rcases hp with rfl | rfl | h
    · exact ⟨by simpa using hdig1, by simpa using ha1⟩
    · exact ⟨by simpa using hdig2, by simpa using ha2⟩
    · exact absurd h (by simp)
  case hshort =>
    simp only [List.filter]
    rw [show (decide (t1.length ≤ 2)) = false by simp; omega]
    rw [show (decide (t2.length ≤ 2)) = false by simp; omega]
    simp

/-! ### The separator regex never fires inside a two-token name -/

theorem takeWhile_nil_of_alpha {t : List Char}
    (h : ∀ c ∈ t, isAsciiAlpha c = true) : t.takeWhile jsSpace = [] := by
  cases t with
  | nil => rfl
  | cons c rest => simp [List.takeWhile_cons, alpha_not_space (h c (by simp))]

theorem matchSepAt_nil : matchSepAt [] = none := by decide

theorem matchSepAt_cons_none (c : Char) (r : List Char)
    (hsp : jsSpace c = false) (h4 : (c == '/') = false)
    (h5 : (c == ';') = false) (h6 : (c == '|') = false) :
    matchSepAt (c :: r) = none := by
  unfold matchSepAt
  have hspan : (c :: r).span jsSpace = ([], c :: r) := by
    simp [List.span_eq_take_drop, List.takeWhile_cons, List.dropWhile_cons, hsp]
  rw [hspan]
  simp [h4, h5, h6]

theorem matchSepAt_space_alpha (t2 : List Char)
    (h : ∀ c ∈ t2, isAsciiAlpha c = true) :
    matchSepAt (' ' :: t2) = none := by
  unfold matchSepAt
  have hspan : (' ' :: t2).span jsSpace = ([' '], t2) := by
    simp [List.span_eq_take_drop, List.takeWhile_cons, List.dropWhile_cons,
      takeWhile_nil_of_alpha h, dropWhile_eq_self_of_all
        (fun c hc => alpha_not_space (h c hc)),
      show jsSpace ' ' = true from rfl]
  rw [hspan]
  simp only
  cases t2 with
  | nil => simp
  | cons a t2' =>
    have ha : (a == '&') = false := by
      simp [alpha_ne a '&' (by decide) (h a (by simp))]
    have ha2 : (a == '/') = false := by
      simp [alpha_ne a '/' (by decide) (h a (by simp))]
    cases t2' with
    | nil => simp [ha, ha2]
    | cons n t2'' =>
      cases t2'' with
      | nil => simp [ha, ha2]
      | cons d r2 =>
        have hr2 : (r2.span jsSpace).1 = [] := by
          rw [List.span_eq_take_drop]
          exact takeWhile_nil_of_alpha (fun c hc => h c (by simp [hc]))
        cases hcond : (charCI a 'A' && charCI n 'N' && charCI d 'D') with
        | false => simp [ha, ha2, hcond, hr2]
        | true =>
          simp only [ha, ha2, hcond, hr2]
          simp [ha, ha2, hr2]

theorem tails_append_cases {α : Type} (xs ys : List α) (t : List α)
    (ht : t ∈ (xs ++ ys).tails) :
    (∃ x xs', (x :: xs') ∈ xs.tails ∧ t = (x :: xs') ++ ys) ∨ t ∈ ys.tails := by
  induction xs with
  | nil => exact Or.inr (by simpa using ht)
  | cons x xs ih =>
    rw [List.cons_append, List.tails_cons] at ht
    rcases List.mem_cons.mp ht with rfl | hmem
    · exact Or.inl ⟨x, xs, by simp [List.tails_cons], rfl⟩
    · rcases ih hmem with ⟨y, ys', hm, rfl⟩ | hm
      · exact Or.inl ⟨y, ys', by simp [List.tails_cons, hm], rfl⟩
      · exact Or.inr hm

theorem mem_of_mem_tails {α : Type} {t l : List α} (ht : t ∈ l.tails) :
    ∀ c ∈ t, c ∈ l := by
  induction l with
  | nil =>
    intro c hc
    simp only [List.tails] at ht
    rcases List.mem_cons.mp ht with rfl | h
    · exact absurd hc (by simp)
    · exact absurd h (by simp)
  | cons a l ih =>
    rw [List.tails_cons] at ht
    rcases List.mem_cons.mp ht with rfl | hmem
    · exact fun c hc => hc
    · exact fun c hc => by simp [ih hmem c hc]

theorem replaceSepGo_eq_self (l : List Char)
    (h : ∀ t ∈ l.tails, matchSepAt t = none) :
    ∀ fuel, l.length ≤ fuel → replaceSepGo fuel l = l := by
  induction l with
  | nil =>
    intro fuel _
    cases fuel <;> rfl
  | cons c rest ih =>
    intro fuel hf
    cases fuel with
    | zero => simp at hf
    | succ fuel =>
      have hself : matchSepAt (c :: rest) = none :=
        h (c :: rest) (by simp [List.tails_cons])
      unfold replaceSepGo
      rw [hself]
      rw [ih (fun t htm => h t (by simp [List.tails_cons, htm])) fuel
        (by simpa using hf)]

theorem replaceSeparators_two_tokens (t1 t2 : List Char)
    (h1 : ∀ c ∈ t1, isAsciiAlpha c = true)
    (h2 : ∀ c ∈ t2, isAsciiAlpha c = true) :
    replaceSeparators (t1 ++ ' ' :: t2) = t1 ++ ' ' :: t2 := by
  apply replaceSepGo_eq_self _ ?_ _ (Nat.le_refl _)
  intro t ht
  rcases tails_append_cases t1 (' ' :: t2) t ht with ⟨x, xs', hmem, rfl⟩ | hmem
  · have hx : x ∈ t1 := mem_of_mem_tails hmem x (by simp)
    have hxa := h1 x hx
    rw [List.cons_append]
    exact matchSepAt_cons_none x _ (alpha_not_space hxa)
      (by simp [alpha_ne x '/' (by decide) hxa])
      (by simp [alpha_ne x ';' (by decide) hxa])
      (by simp [alpha_ne x '|' (by decide) hxa])
  · rw [List.tails_cons] at hmem
    rcases List.mem_cons.mp hmem with rfl | hmem2
    · exact matchSepAt_space_alpha t2 h2
    · cases t with
      | nil => exact matchSepAt_nil
      | cons y ys =>
        have hy : y ∈ t2 := mem_of_mem_tails hmem2 y (by simp)
        have hya := h2 y hy
        exact matchSepAt_cons_none y ys (alpha_not_space hya)
          (by simp [alpha_ne y '/' (by decide) hya])
          (by simp [alpha_ne y ';' (by decide) hya])
          (by simp [alpha_ne y '|' (by decide) hya])

/-! ### Claim C2 -/

theorem exists_trim_decomposition (l : List Char) :
    ∃ a b, l = a ++ trim l ++ b := by
  refine ⟨l.takeWhile jsSpace,
    ((l.dropWhile jsSpace).reverse.takeWhile jsSpace).reverse, ?_⟩
  have hm : trim l ++ ((l.dropWhile jsSpace).reverse.takeWhile jsSpace).reverse
      = l.dropWhile jsSpace := by
    unfold trim dropTrailing
    rw [← List.reverse_append, List.takeWhile_append_dropWhile,
      List.reverse_reverse]
  rw [List.append_assoc, hm, List.takeWhile_append_dropWhile]

theorem containsSub_trim_of_containsSub {t u : List Char}
    (h : containsSub t u = true) : containsSub (trim t) u = true := by
  obtain ⟨a, b, hd⟩ := exists_trim_decomposition t
  refine containsSub_of_inner a b ?_
  rwa [← hd]

/-- If no trimmed business token occurs in the uppercased name, the
owner classifies as residential. -/
theorem classifyOwner_residential_of_no_biz (s : List Char)
    (hbiz : ∀ b ∈ BIZ_LIKE_TOKENS, containsSub (trim b) (upper s) = false) :
    classifyOwner s = .residential := by
  unfold classifyOwner
  cases hs : s.isEmpty with
  | true => simp
  | false =>
    simp only [Bool.false_eq_true, if_false]
    rw [if_neg]
    intro hany
    rcases List.any_eq_true.mp (by simpa using hany) with ⟨b, hb, hc⟩
    have := containsSub_trim_of_containsSub hc
    rw [hbiz b hb] at this
    simp at this

/-- Claim C2 (amended): a string of exactly two alphabetic
space-separated tokens with no negative token and no business token is
accepted by `isLikelyPersonName` and classified residential, provided
additionally that each token has length at least 3 and neither token is
an address-component token (`LOT`/`BLK`/`UNIT`/`STE`/`APT`) — without
those two extra conditions the short-token and address-token rejection
rules fire. -/
theorem two_alpha_tokens_person_and_residential (t1 t2 : List Char)
    (h1 : ∀ c ∈ t1, isAsciiAlpha c = true) (h2 : ∀ c ∈ t2, isAsciiAlpha c = true)
    (hl1 : 3 ≤ t1.length) (hl2 : 3 ≤ t2.length)
    (hneg : ∀ n ∈ NEGATIVE_TOKENS, containsSub n (upper (t1 ++ ' ' :: t2)) = false)
    (hbiz : ∀ b ∈ BIZ_LIKE_TOKENS, containsSub (trim b) (upper (t1 ++ ' ' :: t2)) = false)
    (ha1 : ADDRESS_TOKENS.contains (upper t1) = false)
    (ha2 : ADDRESS_TOKENS.contains (upper t2) = false) :
    isLikelyPersonName (t1 ++ ' ' :: t2) = true ∧
    classifyOwner (t1 ++ ' ' :: t2) = .residential :=
  ⟨isLikelyPersonName_two_alpha_tokens t1 t2 h1 h2 hl1 hl2 hneg hbiz ha1 ha2,
   classifyOwner_residential_of_no_biz _ hbiz⟩

/-- Witness for C2 (amended): `"JOHN SMITH"`. -/
theorem two_alpha_tokens_person_and_residential_witness :
    isLikelyPersonName ("JOHN".toList ++ ' ' :: "SMITH".toList) = true ∧
    classifyOwner ("JOHN".toList ++ ' ' :: "SMITH".toList) = .residential :=
  two_alpha_tokens_person_and_residential "JOHN".toList "SMITH".toList
    (by decide) (by decide) (by decide) (by decide) (by decide) (by decide)
    (by decide) (by decide)

/-- Counterexample to C2 as stated: `"JOHN WU"` consists of exactly two
alphabetic space-separated tokens and contains no negative token and no
business-indicator token, yet `isLikelyPersonName` rejects it (the token
`WU` has length ≤ 2, so the short-token rule fires). -/
theorem two_alpha_tokens_not_always_person :
    ("JOHN WU".toList = "JOHN".toList ++ ' ' :: "WU".toList) ∧
    (∀ c ∈ "JOHN".toList, isAsciiAlpha c = true) ∧
    (∀ c ∈ "WU".toList, isAsciiAlpha c = true) ∧
    (∀ n ∈ NEGATIVE_TOKENS, containsSub n (upper "JOHN WU".toList) = false) ∧
    (∀ b ∈ BIZ_LIKE_TOKENS, containsSub (trim b) (upper "JOHN WU".toList) = false) ∧
    isLikelyPersonName "JOHN WU".toList = false := by
  refine ⟨rfl, by decide, by decide, by decide, by decide, by decide⟩

/-! ### Claim C1: canonical keys are fixed points -/

theorem containsSub_singleton_false {a : Char} {l : List Char}
    (h : ∀ c ∈ l, c ≠ a) : containsSub [a] l = false := by
  induction l with
  | nil => rfl
  | cons c rest ih =>
    unfold containsSub
    rw [ih (fun x hx => h x (by simp [hx]))]
    have : (a == c) = false := by
      simp only [beq_eq_false_iff_ne, ne_eq]
      exact fun he => h c (by simp) he.symm
    simp [isPre, this]

theorem dropTrailing_eq_self {p : Char → Bool} {l : List Char}
    (h : ∀ c, l.getLast? = some c → p c = false) : dropTrailing p l = l := by
  unfold dropTrailing
  cases hrev : l.reverse with
  | nil => simp [List.reverse_eq_nil_iff.mp hrev]
  | cons c rest =>
    have hlast : l.getLast? = some c := by
      rw [List.getLast?_eq_head?_reverse, hrev]
      rfl
    rw [List.dropWhile_cons, h c hlast]
    simp [← hrev]

theorem getLast?_two_tokens (t1 t2 : List Char) (n2 : t2 ≠ []) :
    (t1 ++ ' ' :: t2).getLast? = t2.getLast? := by
  rw [List.getLast?_append]
  cases t2 with
  | nil => exact absurd rfl n2
  | cons b t2' =>
    rw [List.getLast?_cons_cons]
    cases hx : (b :: t2').getLast? with
    | none =>
      exfalso
      rw [List.getLast?_eq_head?_reverse] at hx
      have : (b :: t2').reverse = [] := by
        cases hr : (b :: t2').reverse with
        | nil => rfl
        | cons y ys => rw [hr] at hx; simp at hx
      have := congrArg List.length this
      simp at this
    | some d => rfl

theorem last_char_two_tokens (t1 t2 : List Char) (n2 : t2 ≠ []) :
    ∃ c ∈ t2, (t1 ++ ' ' :: t2).getLast? = some c := by
  rw [getLast?_two_tokens t1 t2 n2]
  cases hx : t2.getLast? with
  | none =>
    exfalso
    rw [List.getLast?_eq_head?_reverse] at hx
    cases t2 with
    | nil => exact absurd rfl n2
    | cons b t2' =>
      cases hr : (b :: t2').reverse with
      | nil =>
        have := congrArg List.length hr
        simp at this
      | cons y ys => rw [hr] at hx; simp at hx
  | some c => exact ⟨c, List.mem_of_getLast?_eq_some hx, rfl⟩

theorem stripParens_two_tokens (t1 t2 : List Char)
    (h1 : ∀ c ∈ t1, isAsciiAlpha c = true)
    (h2 : ∀ c ∈ t2, isAsciiAlpha c = true)
    (n1 : t1 ≠ []) (n2 : t2 ≠ []) :
    stripParens (t1 ++ ' ' :: t2) = t1 ++ ' ' :: t2 := by
  unfold stripParens
  have hdw : (t1 ++ ' ' :: t2).dropWhile (fun c => c == '(') = t1 ++ ' ' :: t2 := by
    cases t1 with
    | nil => exact absurd rfl n1
    | cons a t1' =>
      simp only [List.cons_append, List.dropWhile_cons]
      rw [show ((a == '(') = false) by
        simp [alpha_ne a '(' (by decide) (h1 a (by simp))]]
      simp
  rw [hdw]
  have hdt : dropTrailing (fun c => c == ')') (t1 ++ ' ' :: t2) =
      t1 ++ ' ' :: t2 := by
    apply dropTrailing_eq_self
    intro c hc
    obtain ⟨d, hd, hlast⟩ := last_char_two_tokens t1 t2 n2
    rw [hlast] at hc
    cases hc
    simp only [beq_eq_false_iff_ne, ne_eq]
    exact alpha_ne _ ')' (by decide) (h2 _ hd)
  rw [hdt]
  exact trim_two_tokens t1 t2 (fun c hc => alpha_not_space (h1 c hc))
    (fun c hc => alpha_not_space (h2 c hc)) n1 n2

theorem stripTitles_eq_self (l : List Char)
    (hMR : isPre "MR".toList (upper l) = false)
    (hMS : isPre "MS".toList (upper l) = false)
    (hDR : isPre "DR".toList (upper l) = false)
    (hMISS : isPre "MISS".toList (upper l) = false) :
    stripTitles l = l := by
  have hMR' : isPre ['M', 'R'] (upper l) = false := hMR
  have hMS' : isPre ['M', 'S'] (upper l) = false := hMS
  have hDR' : isPre ['D', 'R'] (upper l) = false := hDR
  have hMISS' : isPre ['M', 'I', 'S', 'S'] (upper l) = false := hMISS
  unfold stripTitles
  simp [hMR', hMS', hDR', hMISS']

theorem suffix_tokens_lengths :
    ∀ alt ∈ SUFFIX_TOKENS, 1 ≤ alt.length ∧ alt.length ≤ 3 := by decide

theorem suffixMatches_two_tokens_false (t1 t2 alt : List Char)
    (h2 : ∀ c ∈ t2, isAsciiAlpha c = true) (hl2 : 3 ≤ t2.length)
    (halt : 1 ≤ alt.length ∧ alt.length ≤ 3) (hne : upper t2 ≠ alt) :
    suffixMatches (t1 ++ ' ' :: t2) alt = false := by
  unfold suffixMatches
  have hklen : (t1 ++ ' ' :: t2).length = t1.length + 1 + t2.length := by
    simp
    omega
  rcases Nat.lt_or_ge alt.length t2.length with hlt | hge
  · -- the boundary character sits inside `t2`, hence is a word character
    have hidx : (t1 ++ ' ' :: t2).length - alt.length - 1 =
        t1.length + (1 + (t2.length - alt.length - 1)) := by omega
    have hj : t2.length - alt.length - 1 < t2.length := by omega
    have hgetd : (t1 ++ ' ' :: t2).getD
        ((t1 ++ ' ' :: t2).length - alt.length - 1) ' ' =
        t2.getD (t2.length - alt.length - 1) ' ' := by
      rw [hidx, List.getD_eq_getElem?_getD, List.getElem?_append_right
        (by omega)]
      rw [show t1.length + (1 + (t2.length - alt.length - 1)) - t1.length =
        1 + (t2.length - alt.length - 1) by omega]
      rw [show (1 + (t2.length - alt.length - 1)) =
        (t2.length - alt.length - 1) + 1 by omega]
      rw [List.getElem?_cons_succ, List.getD_eq_getElem?_getD]
    have hword : wordChar ((t1 ++ ' ' :: t2).getD
        ((t1 ++ ' ' :: t2).length - alt.length - 1) ' ') = true := by
      rw [hgetd, List.getD_eq_getElem?_getD, List.getElem?_eq_getElem hj]
      exact alpha_wordChar (h2 _ (List.getElem_mem hj))
    have hlenne : ((t1 ++ ' ' :: t2).length == alt.length) = false := by
      simp only [beq_eq_false_iff_ne, ne_eq, hklen]
      omega
    rw [hword, hlenne]
    simp
  · -- `alt` is at least as long as `t2`, hence exactly `t2`
    have heq : alt.length = t2.length := by omega
    have hdrop : (t1 ++ ' ' :: t2).drop
        ((t1 ++ ' ' :: t2).length - alt.length) = t2 := by
      rw [show (t1 ++ ' ' :: t2).length - alt.length = (t1 ++ [' ']).length by
        simp [hklen]; omega]
      rw [show t1 ++ ' ' :: t2 = (t1 ++ [' ']) ++ t2 by simp]
      exact List.drop_left _ _
    have : (upper ((t1 ++ ' ' :: t2).drop
        ((t1 ++ ' ' :: t2).length - alt.length)) == alt) = false := by
      rw [hdrop]
      simp [hne]
    rw [this]
    simp

theorem stripSuffixes_two_tokens (t1 t2 : List Char)
    (h2 : ∀ c ∈ t2, isAsciiAlpha c = true) (hl2 : 3 ≤ t2.length)
    (hne : ∀ alt ∈ SUFFIX_TOKENS, upper t2 ≠ alt) :
    stripSuffixes (t1 ++ ' ' :: t2) = t1 ++ ' ' :: t2 := by
  have n2 : t2 ≠ [] := by rintro rfl; simp at hl2
  unfold stripSuffixes
  have hdot : ((t1 ++ ' ' :: t2).getLast? == some '.') = false := by
    obtain ⟨d, hd, hlast⟩ := last_char_two_tokens t1 t2 n2
    rw [hlast]
    simp [alpha_ne d '.' (by decide) (h2 d hd)]
  rw [hdot]
  simp only [Bool.false_eq_true, if_false]
  have hfm : SUFFIX_TOKENS.filterMap (fun alt =>
      if suffixMatches (t1 ++ ' ' :: t2) alt then some alt.length
      else none) = [] := by
    rw [List.filterMap_eq_nil_iff]
    intro alt hmem
    rw [suffixMatches_two_tokens_false t1 t2 alt h2 hl2
      (suffix_tokens_lengths alt hmem) (hne alt hmem)]
    simp
  rw [hfm]
  rfl

theorem tokensOf_two_tokens (t1 t2 : List Char)
    (h1 : ∀ c ∈ t1, isAsciiAlpha c = true)
    (h2 : ∀ c ∈ t2, isAsciiAlpha c = true)
    (n1 : t1 ≠ []) (n2 : t2 ≠ []) :
    tokensOf (t1 ++ ' ' :: t2) = [t1, t2] := by
  unfold tokensOf
  rw [splitPred_append_sep ' ' t2 (fun x hx => alpha_not_space (h1 x hx)) rfl]
  rw [splitPred_no_sep (fun x hx => alpha_not_space (h2 x hx))]
  simp [n1, n2]

theorem processSegment_two_tokens (t1 t2 : List Char)
    (h1 : ∀ c ∈ t1, isAsciiAlpha c = true)
    (h2 : ∀ c ∈ t2, isAsciiAlpha c = true)
    (hl1 : 3 ≤ t1.length) (hl2 : 3 ≤ t2.length)
    (hneg : ∀ n ∈ NEGATIVE_TOKENS, containsSub n (upper (t1 ++ ' ' :: t2)) = false)
    (hbiz : ∀ b ∈ BIZ_LIKE_TOKENS, containsSub (trim b) (upper (t1 ++ ' ' :: t2)) = false)
    (ha1 : ADDRESS_TOKENS.contains (upper t1) = false)
    (ha2 : ADDRESS_TOKENS.contains (upper t2) = false)
    (hMR : isPre "MR".toList (upper (t1 ++ ' ' :: t2)) = false)
    (hMS : isPre "MS".toList (upper (t1 ++ ' ' :: t2)) = false)
    (hDR : isPre "DR".toList (upper (t1 ++ ' ' :: t2)) = false)
    (hMISS : isPre "MISS".toList (upper (t1 ++ ' ' :: t2)) = false)
    (hsuf : ∀ alt ∈ SUFFIX_TOKENS, upper t2 ≠ alt) :
    processSegment (t1 ++ ' ' :: t2) =
      some ⟨t1, none, t2, t1 ++ ' ' :: t2⟩ := by
  have n1 : t1 ≠ [] := by rintro rfl; simp at hl1
  have n2 : t2 ≠ [] := by rintro rfl; simp at hl2
  have hcomma : containsSub [','] (t1 ++ ' ' :: t2) = false := by
    apply containsSub_singleton_false
    intro c hc
    rcases mem_two_tokens hc with h | h | h
    · exact alpha_ne c ',' (by decide) (h1 c h)
    · rw [h]; decide
    · exact alpha_ne c ',' (by decide) (h2 c h)
  have hrwc : rewriteCommaOrder (t1 ++ ' ' :: t2) = t1 ++ ' ' :: t2 := by
    unfold rewriteCommaOrder
    rw [hcomma]
    simp
  have hsp : stripParens (t1 ++ ' ' :: t2) = t1 ++ ' ' :: t2 :=
    stripParens_two_tokens t1 t2 h1 h2 n1 n2
  have hlik : isLikelyPersonName (t1 ++ ' ' :: t2) = true :=
    isLikelyPersonName_two_alpha_tokens t1 t2 h1 h2 hl1 hl2 hneg hbiz ha1 ha2
  have hst : stripTitles (t1 ++ ' ' :: t2) = t1 ++ ' ' :: t2 :=
    stripTitles_eq_self _ hMR hMS hDR hMISS
  have hss : stripSuffixes (t1 ++ ' ' :: t2) = t1 ++ ' ' :: t2 :=
    stripSuffixes_two_tokens t1 t2 h2 hl2 hsuf
  have htr : trim (t1 ++ ' ' :: t2) = t1 ++ ' ' :: t2 :=
    trim_two_tokens t1 t2 (fun c hc => alpha_not_space (h1 c hc))
      (fun c hc => alpha_not_space (h2 c hc)) n1 n2
  have htok : tokensOf (t1 ++ ' ' :: t2) = [t1, t2] :=
    tokensOf_two_tokens t1 t2 h1 h2 n1 n2
  unfold processSegment
  rw [hrwc, hsp]
  simp only [hlik, Bool.not_true, Bool.false_eq_true, if_false, hst, hss, htr,
    htok]

theorem splitPersonNames_two_tokens (t1 t2 : List Char)
    (h1 : ∀ c ∈ t1, isAsciiAlpha c = true)
    (h2 : ∀ c ∈ t2, isAsciiAlpha c = true)
    (hl1 : 3 ≤ t1.length) (hl2 : 3 ≤ t2.length)
    (hneg : ∀ n ∈ NEGATIVE_TOKENS, containsSub n (upper (t1 ++ ' ' :: t2)) = false)
    (hbiz : ∀ b ∈ BIZ_LIKE_TOKENS, containsSub (trim b) (upper (t1 ++ ' ' :: t2)) = false)
    (ha1 : ADDRESS_TOKENS.contains (upper t1) = false)
    (ha2 : ADDRESS_TOKENS.contains (upper t2) = false)
    (hMR : isPre "MR".toList (upper (t1 ++ ' ' :: t2)) = false)
    (hMS : isPre "MS".toList (upper (t1 ++ ' ' :: t2)) = false)
    (hDR : isPre "DR".toList (upper (t1 ++ ' ' :: t2)) = false)
    (hMISS : isPre "MISS".toList (upper (t1 ++ ' ' :: t2)) = false)
    (hsuf : ∀ alt ∈ SUFFIX_TOKENS, upper t2 ≠ alt) :
    splitPersonNames (t1 ++ ' ' :: t2) =
      [⟨t1, none, t2, t1 ++ ' ' :: t2⟩] := by
  have n1 : t1 ≠ [] := by rintro rfl; simp at hl1
  have n2 : t2 ≠ [] := by rintro rfl; simp at hl2
  have hne : (t1 ++ ' ' :: t2).isEmpty = false := by cases t1 <;> simp
  have htr : trim (t1 ++ ' ' :: t2) = t1 ++ ' ' :: t2 :=
    trim_two_tokens t1 t2 (fun c hc => alpha_not_space (h1 c hc))
      (fun c hc => alpha_not_space (h2 c hc)) n1 n2
  have hrs : replaceSeparators (t1 ++ ' ' :: t2) = t1 ++ ' ' :: t2 :=
    replaceSeparators_two_tokens t1 t2 h1 h2
  have hsplit : splitCh '|' (t1 ++ ' ' :: t2) = [t1 ++ ' ' :: t2] := by
    unfold splitCh
    apply splitPred_no_sep
    intro c hc
    rcases mem_two_tokens hc with h | h | h
    · simp [alpha_ne c '|' (by decide) (h1 c h)]
    · rw [h]; decide
    · simp [alpha_ne c '|' (by decide) (h2 c h)]
  have hps := processSegment_two_tokens t1 t2 h1 h2 hl1 hl2 hneg hbiz ha1 ha2
    hMR hMS hDR hMISS hsuf
  unfold splitPersonNames
  rw [hne, htr, hrs, hsplit]
  simp only [Bool.false_eq_true, if_false, List.map_cons, List.map_nil, htr]
  rw [show ((t1 ++ ' ' :: t2).isEmpty = false) from hne]
  simp [hne, hps]

/-- Claim C1 (amended): not every output of `normalizeOwnerKey` is a
fixed point (see the counterexample), but every string of the canonical
key shape — two lowercase alphabetic tokens of length at least 3 joined
by a single space, containing no negative or business token, with
neither token an address token, the string not starting with a title
abbreviation, and the last token not a suffix abbreviation — is a fixed
point of `normalizeOwnerKey`. -/
theorem normalizeOwnerKey_fixed_point_canonical (t1 t2 : List Char)
    (h1 : ∀ c ∈ t1, c.isLower = true) (h2 : ∀ c ∈ t2, c.isLower = true)
    (hl1 : 3 ≤ t1.length) (hl2 : 3 ≤ t2.length)
    (hneg : ∀ n ∈ NEGATIVE_TOKENS, containsSub n (upper (t1 ++ ' ' :: t2)) = false)
    (hbiz : ∀ b ∈ BIZ_LIKE_TOKENS, containsSub (trim b) (upper (t1 ++ ' ' :: t2)) = false)
    (ha1 : ADDRESS_TOKENS.contains (upper t1) = false)
    (ha2 : ADDRESS_TOKENS.contains (upper t2) = false)
    (hMR : isPre "MR".toList (upper (t1 ++ ' ' :: t2)) = false)
    (hMS : isPre "MS".toList (upper (t1 ++ ' ' :: t2)) = false)
    (hDR : isPre "DR".toList (upper (t1 ++ ' ' :: t2)) = false)
    (hMISS : isPre "MISS".toList (upper (t1 ++ ' ' :: t2)) = false)
    (hsuf : ∀ alt ∈ SUFFIX_TOKENS, upper t2 ≠ alt) :
    normalizeOwnerKey (t1 ++ ' ' :: t2) = t1 ++ ' ' :: t2 := by
  have h1a : ∀ c ∈ t1, isAsciiAlpha c = true :=
    fun c hc => lower_is_alpha (h1 c hc)
  have h2a : ∀ c ∈ t2, isAsciiAlpha c = true :=
    fun c hc => lower_is_alpha (h2 c hc)
  have n1 : t1 ≠ [] := by rintro rfl; simp at hl1
  have n2 : t2 ≠ [] := by rintro rfl; simp at hl2
  have hs1 : ∀ c ∈ t1, jsSpace c = false := fun c hc => alpha_not_space (h1a c hc)
  have hs2 : ∀ c ∈ t2, jsSpace c = false := fun c hc => alpha_not_space (h2a c hc)
  have hne : (t1 ++ ' ' :: t2).isEmpty = false := by cases t1 <;> simp
  have hsplit := splitPersonNames_two_tokens t1 t2 h1a h2a hl1 hl2 hneg hbiz
    ha1 ha2 hMR hMS hDR hMISS hsuf
  have htr : trim (t1 ++ ' ' :: t2) = t1 ++ ' ' :: t2 :=
    trim_two_tokens t1 t2 hs1 hs2 n1 n2
  have hlow : lower (t1 ++ ' ' :: t2) = t1 ++ ' ' :: t2 := by
    unfold lower
    have : List.map Char.toLower (t1 ++ ' ' :: t2) =
        List.map id (t1 ++ ' ' :: t2) := by
      apply List.map_congr_left
      intro c hc
      rcases mem_two_tokens hc with h | h | h
      · exact toLower_of_isLower (h1 c h)
      · rw [h]; rfl
      · exact toLower_of_isLower (h2 c h)
    rw [this, List.map_id]
  have hfil : (t1 ++ ' ' :: t2).filter keepKeyChar = t1 ++ ' ' :: t2 := by
    rw [List.filter_eq_self]
    intro c hc
    rcases mem_two_tokens hc with h | h | h
    · exact keepKeyChar_of_lower (h1 c h)
    · rw [h]; rfl
    · exact keepKeyChar_of_lower (h2 c h)
  unfold normalizeOwnerKey
  rw [hne, hsplit]
  simp only [Bool.false_eq_true, if_false]
  rw [htr, hlow, hfil]
  exact collapseRuns_single_space rfl t1 t2 hs1 hs2 n2

/-- Witness for C1 (amended): the canonical key `"john smith"` is a
fixed point of `normalizeOwnerKey`. -/
theorem normalizeOwnerKey_fixed_point_canonical_witness :
    normalizeOwnerKey ("john".toList ++ ' ' :: "smith".toList) =
      "john".toList ++ ' ' :: "smith".toList :=
  normalizeOwnerKey_fixed_point_canonical "john".toList "smith".toList
    (by decide) (by decide) (by decide) (by decide) (by decide) (by decide)
    (by decide) (by decide) (by decide) (by decide) (by decide) (by decide)
    (by decide)

/-- Counterexample to C1 as stated: `normalizeOwnerKey "JOHN PHD"` is
`"john"` (the suffix `PHD` is stripped, leaving a single token with an
empty last name), and re-applying `normalizeOwnerKey` collapses `"john"`
to the empty string, so the output is not a fixed point. -/
theorem normalizeOwnerKey_not_idempotent :
    normalizeOwnerKey (normalizeOwnerKey "JOHN PHD".toList) ≠
      normalizeOwnerKey "JOHN PHD".toList := by
  decide

end AustinWizard
